import Mathlib

/-!
Verification development for a Distance-Vector Routing simulator (`dvr.py`).

The embedding models:

* costs as integers extended with the `math.inf` sentinel (`Cost`),
* a routing table as a logically total map `String → Cost × String`
  (mirroring the `defaultdict` whose default entry is `[inf, "[no path]"]`),
* a `Router` with the fields of the Python class,
* the Bellman-Ford relaxation performed by `threaded` (lines 126-146),
* the topology loading of `input_parser` (lines 69-105), here `parseInput`
  since it takes the already tokenised `(src, dest, cost)` triples,
* the synchronized-round simulation driven by the main loop: every router
  first snapshots its table into each neighbour's queue, then every router
  relaxes.  Message arrival order within a queue is thread-timing dependent
  in the original; the model fixes the canonical order given by the
  receiver's neighbour list.
-/

/-- Path costs: an integer or the `math.inf` sentinel. -/
inductive Cost where
  | fin : Int → Cost
  | inf : Cost
deriving DecidableEq

/-- Addition of costs, with the Python float semantics
`inf + c = c + inf = inf` (saturation, no wrap-around, no error). -/
def Cost.add : Cost → Cost → Cost
  | Cost.fin a, Cost.fin b => Cost.fin (a + b)
  | _, _ => Cost.inf

/-- Strict comparison of costs, with the Python float semantics
`c < inf` for finite `c`, and `inf < x` false for every `x`. -/
def Cost.blt : Cost → Cost → Bool
  | Cost.fin a, Cost.fin b => a < b
  | Cost.fin _, Cost.inf => true
  | Cost.inf, _ => false

/-- Non-strict comparison of costs. -/
def Cost.ble : Cost → Cost → Bool
  | Cost.fin a, Cost.fin b => a ≤ b
  | Cost.inf, Cost.fin _ => false
  | _, Cost.inf => true

/-- `0 ≤ c` (with `0 ≤ inf`). -/
def Cost.nonneg : Cost → Bool
  | Cost.fin a => 0 ≤ a
  | Cost.inf => true

/-- A routing-table entry: cost and next hop.  The Python table maps a
destination to the pair `[cost, path]`. -/
abbrev Entry := Cost × String

/-- The default entry of the `defaultdict`: `[math.inf, "[no path]"]`. -/
def defaultEntry : Entry := (Cost.inf, "[no path]")

/-- A routing table, logically total over all names (the `defaultdict`
resolves every missing key to `defaultEntry`). -/
abbrev Table := String → Entry

/-- Pointwise update of a table, mirroring `table[k] = v`. -/
def updT (t : Table) (k : String) (v : Entry) : Table :=
  fun x => if x = k then v else t x

/-- The state of one `Router` object. -/
structure Router where
  name : String
  queue : List (Table × String)
  iterations : Nat
  neighbours : List String
  appended_at : String → Option Nat
  table : Table

/-- `Router.__init__`: empty queue and neighbour list, zero iterations,
table with `table[name] = (0, "None")` and every other destination at the
default `(inf, "[no path]")`. -/
def Router.init (name : String) : Router :=
  { name := name
    queue := []
    iterations := 0
    neighbours := []
    appended_at := fun _ => none
    table := fun d => if d = name then (Cost.fin 0, "None") else defaultEntry }

/-- One destination step of the Bellman-Ford loop (lines 131-137 of
`threaded`): for destination `r`, with received vector `vec` from sender
`name`, compute `val = vec[r].cost + own[name].cost` (the live table `own`
is not modified during the relaxation loop, so this is the pre-round cost
to the sender) and on strict improvement set
`t[r] = (val, t[name].path)`. -/
def relaxStep (own vec : Table) (name : String) (t : Table) (r : String) : Table :=
  let val := (vec r).1.add ((own name).1)
  if val.blt ((t r).1) then updT t r (val, (t name).2) else t

/-- Processing of one queued message `(vec, name)` (lines 129-137): the
destination loop runs over the full router universe `univ` (the keys of
the global `routers` dict). -/
def relaxVec (own : Table) (univ : List String) (t : Table) (msg : Table × String) : Table :=
  univ.foldl (relaxStep own msg.1 msg.2) t

/-- The whole relaxation of one round (lines 126-137): starting from a
copy of the router's own table, process every queued message in order.
The candidates always read the sender cost from `own`, the table as it was
before this round's updates. -/
def relax (own : Table) (univ : List String) (q : List (Table × String)) : Table :=
  q.foldl (relaxVec own univ) own

/-- The compute phase of `threaded` (lines 120-146): increment
`iterations`, relax, install the relaxed table, record
`appended_at[k] = iterations` exactly for the destinations whose entry
changed, and clear the queue. -/
def applyRound (univ : List String) (r : Router) : Router :=
  let its := r.iterations + 1
  let tc := relax r.table univ r.queue
  { r with
    iterations := its
    table := tc
    appended_at := fun k => if r.table k ≠ tc k then some its else r.appended_at k
    queue := [] }

/-- The global network: the keys of the `routers` dict and the router
objects.  Names outside `names` behave as freshly constructed routers
(they are never touched by the simulation). -/
structure Net where
  names : List String
  routers : String → Router

/-- `add_to_queue` run for every router (the send phase of a round): the
queue of router `n` ends up holding one snapshot `(table of m, m)` per
neighbour `m` of `n` (edges are symmetric, so the routers that send to `n`
are exactly the neighbours of `n`); the canonical model orders the queue
by `n`'s neighbour list. -/
def sendPhase (net : Net) : Net :=
  { net with routers := fun n =>
      { net.routers n with
        queue := (net.routers n).neighbours.map (fun m => ((net.routers m).table, m)) } }

/-- One synchronized round of the main loop: all routers send, then every
router in the dict relaxes. -/
def globalRound (net : Net) : Net :=
  let sent := sendPhase net
  { sent with routers := fun n =>
      if n ∈ net.names then applyRound net.names (sent.routers n) else sent.routers n }

/-- `r` rounds of the simulation. -/
def simulate (net : Net) : Nat → Net
  | 0 => net
  | r + 1 => globalRound (simulate net r)

/-- The message of the bare `except` clause of `input_parser`. -/
def syntaxErrorMsg : String := "Check input file for Syntax error."

/-- Applying one parsed edge line (lines 93-102 of `input_parser`):
append `dest` to `src`'s neighbours and set `src.table[dest] = (cost, dest)`,
then symmetrically for `dest`. -/
def addEdge (rs : String → Router) (src dest : String) (c : Int) : String → Router :=
  let rs1 := fun n =>
    if n = src then
      { rs src with
        neighbours := (rs src).neighbours ++ [dest]
        table := updT (rs src).table dest (Cost.fin c, dest) }
    else rs n
  fun n =>
    if n = dest then
      { rs1 dest with
        neighbours := (rs1 dest).neighbours ++ [src]
        table := updT (rs1 dest).table src (Cost.fin c, src) }
    else rs1 n

/-- One edge line of `input_parser`, with its failure modes: `routers[src]`
or `routers[dest]` raises `KeyError` when the name was not declared, and
`routers[src].table[dest][0] = cost` raises `TypeError` when `dest == src`,
because the self entry installed by the constructor is an immutable tuple;
the bare `except` converts any of these into `SyntaxError`.  A non-positive
cost or a repeated edge raises nothing. -/
def parseEdge (names : List String) (rs : String → Router) :
    String × String × Int → Except String (String → Router)
  | (src, dest, c) =>
    if src ∈ names then
      if src = dest then Except.error syntaxErrorMsg
      else if dest ∈ names then Except.ok (addEdge rs src dest c)
      else Except.error syntaxErrorMsg
    else Except.error syntaxErrorMsg

/-- `input_parser` on the already tokenised input: construct one fresh
router per declared name, then fold the edge lines. -/
def parseInput (names : List String) (edges : List (String × String × Int)) :
    Except String Net :=
  (edges.foldlM (parseEdge names) (fun n => Router.init n)).map
    (fun rs => { names := names, routers := rs })

/-- The "running minimum" combining function hiding in the strict-improvement
update of the relaxation. -/
def Cost.minb (a b : Cost) : Cost := if b.blt a then b else a

/-- The candidate cost contributed by message `m` for destination `d`:
the received cost to `d` plus the receiver's own (pre-round) cost to the
sender. -/
def candCost (own : Table) (m : Table × String) (d : String) : Cost :=
  (m.1 d).1.add ((own m.2).1)

/-- All costs of a table are nonnegative. -/
def tableNonneg (t : Table) : Prop := ∀ d, ((t d).1).nonneg = true

/-- Relative to a router with identity `n` and neighbour list `nbrs`: the
cost to every neighbour is finite, and every finite-cost entry for a
destination other than `n` has a next hop in `nbrs`. -/
def tInv (n : String) (nbrs : List String) (t : Table) : Prop :=
  (∀ m ∈ nbrs, (t m).1 ≠ Cost.inf) ∧
  (∀ d, d ≠ n → (t d).1 ≠ Cost.inf → (t d).2 ∈ nbrs)

/-- Every cost in every table is nonnegative and every router's entry for
itself is `(0, "None")`. -/
def rsGood (rs : String → Router) : Prop :=
  ∀ n, tableNonneg ((rs n).table) ∧ (rs n).table n = (Cost.fin 0, "None")

/-- Per-router invariant over the whole network: no self-loop in the
neighbour list, and `tInv` for the router's own table. -/
def rsInvHop (rs : String → Router) : Prop :=
  ∀ n, n ∉ (rs n).neighbours ∧ tInv n (rs n).neighbours (rs n).table


/-! ### Concrete instances used in the statements below -/

/-- The 3-node line topology `A-B-C` with unit edge costs
(the spec scenario). -/
def lineNet : Net :=
  match parseInput ["A", "B", "C"] [("A", "B", 1), ("B", "C", 1)] with
  | Except.ok n => n
  | Except.error _ => { names := [], routers := fun n => Router.init n }

/-- The 2-node topology `A-B` with a unit edge cost. -/
def netAB : Net :=
  match parseInput ["A", "B"] [("A", "B", 1)] with
  | Except.ok n => n
  | Except.error _ => { names := [], routers := fun n => Router.init n }

/-- A table for a router `X` with neighbours `P` and `Q` at cost 1. -/
def ownX : Table := fun d =>
  if d = "X" then (Cost.fin 0, "None")
  else if d = "P" then (Cost.fin 1, "P")
  else if d = "Q" then (Cost.fin 1, "Q")
  else defaultEntry

/-- A vector sent by `P`, reporting destination `D` at cost 1. -/
def vecP : Table := fun d =>
  if d = "P" then (Cost.fin 0, "None")
  else if d = "D" then (Cost.fin 1, "D")
  else if d = "X" then (Cost.fin 1, "X")
  else defaultEntry

/-- A vector sent by `Q`, also reporting destination `D` at cost 1. -/
def vecQ : Table := fun d =>
  if d = "Q" then (Cost.fin 0, "None")
  else if d = "D" then (Cost.fin 1, "D")
  else if d = "X" then (Cost.fin 1, "X")
  else defaultEntry

/-- The router universe for the `X, P, Q, D` example. -/
def univX : List String := ["X", "P", "Q", "D"]

/-- The converged table of router `A` in the 2-node topology. -/
def tabA : Table := fun d =>
  if d = "A" then (Cost.fin 0, "None")
  else if d = "B" then (Cost.fin 1, "B")
  else defaultEntry

/-- The converged table of router `B` in the 2-node topology. -/
def tabB : Table := fun d =>
  if d = "B" then (Cost.fin 0, "None")
  else if d = "A" then (Cost.fin 1, "A")
  else defaultEntry

/-- Router `A` of the 2-node topology at its fixed point, with `B`'s
stable vector queued. -/
def routerA : Router :=
  { name := "A"
    queue := [(tabB, "B")]
    iterations := 1
    neighbours := ["B"]
    appended_at := fun _ => none
    table := tabA }

/-- The router universe of the 2-node topology. -/
def univAB : List String := ["A", "B"]

/-! ### Basic facts about `Cost` -/

theorem Cost.inf_add (c : Cost) : Cost.inf.add c = Cost.inf := by
  cases c <;> rfl

theorem Cost.add_inf (c : Cost) : c.add Cost.inf = Cost.inf := by
  cases c <;> rfl

theorem Cost.inf_blt (c : Cost) : Cost.inf.blt c = false := rfl

theorem Cost.blt_self (c : Cost) : c.blt c = false := by
  cases c <;> simp [Cost.blt]

theorem Cost.ble_refl (c : Cost) : c.ble c = true := by
  cases c <;> simp [Cost.ble]

theorem Cost.ble_of_blt {a b : Cost} (h : a.blt b = true) : a.ble b = true := by
  cases a <;> cases b <;> simp_all [Cost.blt, Cost.ble] <;> omega

theorem Cost.ble_trans {a b c : Cost} (h1 : a.ble b = true) (h2 : b.ble c = true) :
    a.ble c = true := by
  cases a <;> cases b <;> cases c <;> simp_all [Cost.ble] <;> omega

theorem Cost.nonneg_add {a b : Cost} (ha : a.nonneg = true) (hb : b.nonneg = true) :
    (a.add b).nonneg = true := by
  cases a <;> cases b <;> simp_all [Cost.add, Cost.nonneg] <;> omega

theorem Cost.not_blt_zero_of_nonneg {c : Cost} (h : c.nonneg = true) :
    c.blt (Cost.fin 0) = false := by
  cases c <;> simp_all [Cost.blt, Cost.nonneg] <;> omega

theorem Cost.ne_inf_of_ble {a : Cost} {n : Int} (h : a.ble (Cost.fin n) = true) :
    a ≠ Cost.inf := by
  cases a <;> simp_all [Cost.ble]


theorem Cost.minb_right_comm (a b c : Cost) :
    (Cost.minb (Cost.minb a b) c) = (Cost.minb (Cost.minb a c) b) := by
  cases a <;> cases b <;> cases c <;>
    simp [Cost.minb, Cost.blt] <;> split_ifs <;> simp_all <;> omega

theorem Cost.minb_ble (a b : Cost) : (Cost.minb a b).ble a = true := by
  cases a <;> cases b <;> simp [Cost.minb, Cost.blt, Cost.ble] <;>
    split_ifs <;> simp_all [Cost.ble] <;> omega

/-! ### Structural lemmas about the relaxation -/

theorem relaxStep_apply_ne (own vec : Table) (name : String) (t : Table)
    (r d : String) (hd : d ≠ r) : (relaxStep own vec name t r) d = t d := by
  unfold relaxStep updT
  split
  · show (if d = r then _ else t d) = t d
    simp [hd]
  · rfl

theorem relaxStep_name_path (own vec : Table) (name : String) (t : Table)
    (r : String) : ((relaxStep own vec name t r) name).2 = (t name).2 := by
  unfold relaxStep updT
  split
  · show (if name = r then (_, (t name).2) else t name).2 = (t name).2
    by_cases hn : name = r <;> simp [hn]
  · rfl

/-- Closed form of one message's processing: destination `d` is updated
exactly when `d` is in the universe and the candidate
`vec[d].cost + own[name].cost` strictly beats the current cost, and the
next hop recorded is then the next hop toward the sender in the table as
it stands when this message starts (that entry's path component cannot
change while the message itself is processed). -/
theorem relaxVec_apply (own : Table) (univ : List String) (t : Table)
    (vec : Table) (name : String) (d : String) :
    (relaxVec own univ t (vec, name)) d =
      if d ∈ univ ∧ ((vec d).1.add ((own name).1)).blt ((t d).1) = true
      then (((vec d).1.add ((own name).1)), (t name).2)
      else t d := by
  show (List.foldl (relaxStep own vec name) t univ) d = _
  induction univ generalizing t with
  | nil => simp
  | cons r rest ih =>
    simp only [List.foldl_cons]
    rw [ih]
    rw [relaxStep_name_path]
    by_cases hd : d = r
    · subst hd
      by_cases h : ((vec d).1.add ((own name).1)).blt ((t d).1) = true
      · have h1 : (relaxStep own vec name t d) d =
            (((vec d).1.add ((own name).1)), (t name).2) := by
          unfold relaxStep updT
          simp [h]
        rw [h1]
        simp [Cost.blt_self, h]
      · have h1 : (relaxStep own vec name t d) d = t d := by
          unfold relaxStep
          simp [h]
        rw [h1]
        simp [h]
    · rw [relaxStep_apply_ne own vec name t r d hd]
      simp [List.mem_cons, hd]


theorem relaxVec_cost (own : Table) (univ : List String) (t : Table)
    (m : Table × String) (d : String) :
    ((relaxVec own univ t m) d).1 =
      if d ∈ univ then Cost.minb ((t d).1) (candCost own m d) else (t d).1 := by
  cases m with
  | mk vec name =>
    rw [relaxVec_apply]
    by_cases hm : d ∈ univ
    · by_cases h : (candCost own (vec, name) d).blt ((t d).1) = true
      · simp only [candCost] at h
        simp [hm, h, Cost.minb, candCost]
      · simp only [candCost] at h
        simp [hm, h, Cost.minb, candCost]
    · simp [hm]

theorem relax_foldl_not_mem (own : Table) (univ : List String) (d : String)
    (hd : d ∉ univ) :
    ∀ (q : List (Table × String)) (t : Table),
      (q.foldl (relaxVec own univ) t) d = t d := by
  intro q
  induction q with
  | nil => intro t; rfl
  | cons m rest ih =>
    intro t
    simp only [List.foldl_cons]
    rw [ih]
    cases m with
    | mk vec name =>
      rw [relaxVec_apply]
      simp [hd]

/-- Entries outside the router universe are never touched by a round's
relaxation. -/
theorem relax_not_mem (own : Table) (univ : List String)
    (q : List (Table × String)) (d : String) (hd : d ∉ univ) :
    (relax own univ q) d = own d :=
  relax_foldl_not_mem own univ d hd q own

theorem relax_foldl_cost (own : Table) (univ : List String) (d : String) :
    ∀ (q : List (Table × String)) (t : Table),
      ((q.foldl (relaxVec own univ) t) d).1 =
        q.foldl
          (fun a m => if d ∈ univ then Cost.minb a (candCost own m d) else a)
          ((t d).1) := by
  intro q
  induction q with
  | nil => intro t; rfl
  | cons m rest ih =>
    intro t
    simp only [List.foldl_cons]
    rw [ih]
    rw [relaxVec_cost]

/-- The per-round cost of a destination is the running minimum of the
pre-round cost and all candidates; since the combining function is a
minimum over candidates that depend only on the pre-round table, the
resulting cost does not depend on the processing order of the queue. -/
theorem relax_cost_perm (own : Table) (univ : List String)
    (q q' : List (Table × String)) (hp : q.Perm q') (d : String) :
    ((relax own univ q) d).1 = ((relax own univ q') d).1 := by
  unfold relax
  rw [relax_foldl_cost, relax_foldl_cost]
  refine hp.foldl_eq' ?_ ((own d).1)
  intro x _ y _ z
  by_cases hm : d ∈ univ
  · simp only [hm, if_true]
    exact Cost.minb_right_comm z (candCost own x d) (candCost own y d)
  · simp [hm]

theorem relax_foldl_cost_ble (own : Table) (univ : List String) (d : String) :
    ∀ (q : List (Table × String)) (t : Table),
      ((q.foldl (relaxVec own univ) t) d).1.ble ((t d).1) = true := by
  intro q
  induction q with
  | nil => intro t; exact Cost.ble_refl _
  | cons m rest ih =>
    intro t
    simp only [List.foldl_cons]
    refine Cost.ble_trans (ih (relaxVec own univ t m)) ?_
    rw [relaxVec_cost]
    by_cases hm : d ∈ univ
    · simp only [hm, if_true]
      exact Cost.minb_ble _ _
    · simp [hm, Cost.ble_refl]

/-- A round's relaxation never increases any cost. -/
theorem relax_cost_ble (own : Table) (univ : List String)
    (q : List (Table × String)) (d : String) :
    ((relax own univ q) d).1.ble ((own d).1) = true :=
  relax_foldl_cost_ble own univ d q own


theorem relaxVec_nonneg (own : Table) (univ : List String) (t : Table)
    (vec : Table) (name : String) (d : String)
    (hv : ((vec d).1).nonneg = true) (ho : ((own name).1).nonneg = true)
    (ht : ((t d).1).nonneg = true) :
    (((relaxVec own univ t (vec, name)) d).1).nonneg = true := by
  rw [relaxVec_apply]
  split
  · exact Cost.nonneg_add hv ho
  · exact ht

theorem relax_foldl_nonneg (own : Table) (univ : List String)
    (ho : tableNonneg own) :
    ∀ (q : List (Table × String)) (t : Table),
      (∀ m ∈ q, tableNonneg m.1) → tableNonneg t →
      tableNonneg (q.foldl (relaxVec own univ) t) := by
  intro q
  induction q with
  | nil => intro t _ ht; exact ht
  | cons m rest ih =>
    intro t hq ht
    simp only [List.foldl_cons]
    refine ih (relaxVec own univ t m) (fun x hx => hq x (List.mem_cons_of_mem m hx)) ?_
    intro d
    cases m with
    | mk vec name =>
      exact relaxVec_nonneg own univ t vec name d
        (hq (vec, name) (List.mem_cons_self _ _) d) (ho name) (ht d)

/-- Relaxation keeps every cost nonnegative when the own table and all
received vectors are nonnegative. -/
theorem relax_nonneg (own : Table) (univ : List String)
    (q : List (Table × String)) (ho : tableNonneg own)
    (hq : ∀ m ∈ q, tableNonneg m.1) : tableNonneg (relax own univ q) :=
  relax_foldl_nonneg own univ ho q own hq ho

theorem relaxVec_self (own : Table) (univ : List String) (t : Table)
    (vec : Table) (name : String) (n : String)
    (hn : (t n).1 = Cost.fin 0)
    (hv : ((vec n).1).nonneg = true) (ho : ((own name).1).nonneg = true) :
    (relaxVec own univ t (vec, name)) n = t n := by
  rw [relaxVec_apply]
  have : (((vec n).1).add ((own name).1)).blt ((t n).1) = false := by
    rw [hn]
    exact Cost.not_blt_zero_of_nonneg (Cost.nonneg_add hv ho)
  simp [this]

theorem relax_foldl_self (own : Table) (univ : List String) (n : String)
    (ho : tableNonneg own) :
    ∀ (q : List (Table × String)) (t : Table),
      (∀ m ∈ q, tableNonneg m.1) → (t n).1 = Cost.fin 0 →
      (q.foldl (relaxVec own univ) t) n = t n := by
  intro q
  induction q with
  | nil => intro t _ _; rfl
  | cons m rest ih =>
    intro t hq hn
    simp only [List.foldl_cons]
    cases m with
    | mk vec name =>
      have hstep : (relaxVec own univ t (vec, name)) n = t n :=
        relaxVec_self own univ t vec name n hn
          (hq (vec, name) (List.mem_cons_self _ _) n) (ho name)
      rw [ih (relaxVec own univ t (vec, name))
        (fun x hx => hq x (List.mem_cons_of_mem _ hx)) (by rw [hstep, hn]), hstep]

/-- The self entry is untouched by a round's relaxation, provided all
costs in sight are nonnegative. -/
theorem relax_self (own : Table) (univ : List String)
    (q : List (Table × String)) (n : String)
    (hn : (own n).1 = Cost.fin 0) (ho : tableNonneg own)
    (hq : ∀ m ∈ q, tableNonneg m.1) : (relax own univ q) n = own n :=
  relax_foldl_self own univ n ho q own hq hn

/-! ### Parser lemmas -/

theorem parseEdge_ok {names : List String} {rs : String → Router}
    {e : String × String × Int} {rs1 : String → Router}
    (h : parseEdge names rs e = Except.ok rs1) :
    e.1 ∈ names ∧ e.1 ≠ e.2.1 ∧ e.2.1 ∈ names ∧
      rs1 = addEdge rs e.1 e.2.1 e.2.2 := by
  obtain ⟨src, dest, c⟩ := e
  simp only [parseEdge] at h
  by_cases h1 : src ∈ names
  · rw [if_pos h1] at h
    by_cases h2 : src = dest
    · rw [if_pos h2] at h
      exact Except.noConfusion h
    · rw [if_neg h2] at h
      by_cases h3 : dest ∈ names
      · rw [if_pos h3] at h
        injection h with h
        exact ⟨h1, h2, h3, h.symm⟩
      · rw [if_neg h3] at h
        exact Except.noConfusion h
  · rw [if_neg h1] at h
    exact Except.noConfusion h

theorem parseEdge_isOk (names : List String) (rs : String → Router)
    (e : String × String × Int) :
    (parseEdge names rs e).isOk =
      (decide (e.1 ∈ names) && decide (e.1 ≠ e.2.1) && decide (e.2.1 ∈ names)) := by
  obtain ⟨src, dest, c⟩ := e
  simp only [parseEdge]
  split_ifs with h1 h2 h3 <;> simp_all [Except.isOk, Except.toBool]

/-- An invariant on the router map carried through the edge fold of the
parser; `Q` is a property known for every edge of the input. -/
theorem parse_foldlM_invariant (P : (String → Router) → Prop)
    (Q : String × String × Int → Prop) (names : List String)
    (hP : ∀ rs src dest c, src ≠ dest → Q (src, dest, c) → P rs →
      P (addEdge rs src dest c)) :
    ∀ (edges : List (String × String × Int)) (rs rs' : String → Router),
      (∀ e ∈ edges, Q e) → P rs →
      edges.foldlM (parseEdge names) rs = Except.ok rs' → P rs' := by
  intro edges
  induction edges with
  | nil =>
    intro rs rs' _ h0 h
    simp only [List.foldlM_nil] at h
    injection h with h
    rwa [← h]
  | cons e rest ih =>
    intro rs rs' hQ h0 h
    simp only [List.foldlM_cons] at h
    cases he : parseEdge names rs e with
    | error msg =>
      rw [he] at h
      exact Except.noConfusion h
    | ok rs1 =>
      rw [he] at h
      replace h : rest.foldlM (parseEdge names) rs1 = Except.ok rs' := h
      obtain ⟨_, hne, _, heq⟩ := parseEdge_ok he
      refine ih rs1 rs' (fun x hx => hQ x (List.mem_cons_of_mem _ hx)) ?_ h
      exact heq ▸ hP rs e.1 e.2.1 e.2.2 hne (hQ e (List.mem_cons_self _ _)) h0

theorem parse_foldlM_isOk (names : List String) :
    ∀ (edges : List (String × String × Int)) (rs : String → Router),
      (edges.foldlM (parseEdge names) rs).isOk =
        edges.all (fun e =>
          decide (e.1 ∈ names) && decide (e.1 ≠ e.2.1) && decide (e.2.1 ∈ names)) := by
  intro edges
  induction edges with
  | nil => intro rs; rfl
  | cons e rest ih =>
    intro rs
    simp only [List.foldlM_cons, List.all_cons]
    cases he : parseEdge names rs e with
    | error msg =>
      have hfalse : (decide (e.1 ∈ names) && decide (e.1 ≠ e.2.1) && decide (e.2.1 ∈ names))
          = false := by
        rw [← parseEdge_isOk names rs e, he]
        rfl
      rw [hfalse]
      rfl
    | ok rs1 =>
      have htrue : (decide (e.1 ∈ names) && decide (e.1 ≠ e.2.1) && decide (e.2.1 ∈ names))
          = true := by
        rw [← parseEdge_isOk names rs e, he]
        rfl
      rw [htrue]
      simp only [Bool.true_and]
      exact ih rs1


/-- Pointwise description of the tables after one edge is applied. -/
theorem addEdge_table_apply (rs : String → Router) (src dest : String)
    (c : Int) (hne : src ≠ dest) (n d : String) :
    (addEdge rs src dest c n).table d =
      if n = dest ∧ d = src then (Cost.fin c, src)
      else if n = src ∧ d = dest then (Cost.fin c, dest)
      else (rs n).table d := by
  have hds : ¬ dest = src := fun h => hne h.symm
  unfold addEdge updT
  by_cases h1 : n = dest
  · subst h1
    by_cases h2 : d = src <;> simp [h2, hds]
  · simp only [if_neg h1]
    by_cases h2 : n = src
    · subst h2
      by_cases h3 : d = dest <;> simp [h1, h3]
    · simp [h1, h2]

/-- Pointwise description of the neighbour lists after one edge. -/
theorem addEdge_neighbours (rs : String → Router) (src dest : String)
    (c : Int) (hne : src ≠ dest) (n : String) :
    (addEdge rs src dest c n).neighbours =
      if n = dest then (rs dest).neighbours ++ [src]
      else if n = src then (rs src).neighbours ++ [dest]
      else (rs n).neighbours := by
  unfold addEdge
  by_cases h1 : n = dest
  · subst h1
    simp [hne.symm]
  · by_cases h2 : n = src
    · subst h2
      simp [h1, hne]
    · simp [h1, h2]

theorem addEdge_name (rs : String → Router) (src dest : String)
    (c : Int) (hne : src ≠ dest) (n : String) :
    (addEdge rs src dest c n).name = (rs n).name := by
  have hds : ¬ dest = src := fun h => hne h.symm
  unfold addEdge
  by_cases h1 : n = dest
  · subst h1
    simp [hds]
  · by_cases h2 : n = src <;> simp [h1, h2, hds, hne]

theorem parseInput_ok {names : List String} {edges : List (String × String × Int)}
    {net : Net} (h : parseInput names edges = Except.ok net) :
    net.names = names ∧
      edges.foldlM (parseEdge names) (fun n => Router.init n) =
        Except.ok net.routers := by
  unfold parseInput at h
  cases hf : edges.foldlM (parseEdge names) (fun n => Router.init n) with
  | error msg =>
    rw [hf] at h
    exact Except.noConfusion h
  | ok rs =>
    rw [hf] at h
    injection h with h
    exact ⟨by rw [← h], by rw [← h]⟩

/-! ### Field equations for the round machinery -/

theorem applyRound_table (univ : List String) (r : Router) :
    (applyRound univ r).table = relax r.table univ r.queue := rfl

theorem applyRound_neighbours (univ : List String) (r : Router) :
    (applyRound univ r).neighbours = r.neighbours := rfl

theorem applyRound_name (univ : List String) (r : Router) :
    (applyRound univ r).name = r.name := rfl

theorem applyRound_iterations (univ : List String) (r : Router) :
    (applyRound univ r).iterations = r.iterations + 1 := rfl

theorem applyRound_queue (univ : List String) (r : Router) :
    (applyRound univ r).queue = [] := rfl

theorem applyRound_appended_at (univ : List String) (r : Router) (k : String) :
    (applyRound univ r).appended_at k =
      if r.table k ≠ relax r.table univ r.queue k then some (r.iterations + 1)
      else r.appended_at k := rfl

theorem globalRound_names (net : Net) : (globalRound net).names = net.names := rfl

theorem globalRound_routers_mem (net : Net) (n : String) (hn : n ∈ net.names) :
    (globalRound net).routers n =
      applyRound net.names
        { net.routers n with
          queue := (net.routers n).neighbours.map
            (fun m => ((net.routers m).table, m)) } := by
  unfold globalRound sendPhase
  simp [hn]

theorem globalRound_routers_not_mem (net : Net) (n : String) (hn : n ∉ net.names) :
    (globalRound net).routers n =
      { net.routers n with
        queue := (net.routers n).neighbours.map
          (fun m => ((net.routers m).table, m)) } := by
  unfold globalRound sendPhase
  simp [hn]

theorem simulate_names (net : Net) : ∀ r, (simulate net r).names = net.names := by
  intro r
  induction r with
  | zero => rfl
  | succ r ih => rw [simulate, globalRound_names, ih]

/-! ### The nonnegativity and self-entry invariant of the simulation -/


theorem rsGood_init : rsGood (fun n => Router.init n) := by
  intro n
  constructor
  · intro d
    show (((if d = n then (Cost.fin 0, "None") else defaultEntry) : Entry).1).nonneg = true
    by_cases hd : d = n <;> simp [hd, Cost.nonneg, defaultEntry]
  · show (if n = n then ((Cost.fin 0 : Cost), ("None" : String)) else defaultEntry) = _
    simp

theorem rsGood_addEdge (rs : String → Router) (src dest : String) (c : Int)
    (hne : src ≠ dest) (hc : 0 < c) (h : rsGood rs) :
    rsGood (addEdge rs src dest c) := by
  intro n
  constructor
  · intro d
    rw [addEdge_table_apply rs src dest c hne]
    by_cases h1 : n = dest ∧ d = src
    · rw [if_pos h1]
      show (Cost.fin c).nonneg = true
      simp [Cost.nonneg]
      omega
    · rw [if_neg h1]
      by_cases h2 : n = src ∧ d = dest
      · rw [if_pos h2]
        show (Cost.fin c).nonneg = true
        simp [Cost.nonneg]
        omega
      · rw [if_neg h2]
        exact (h n).1 d
  · rw [addEdge_table_apply rs src dest c hne]
    have h1 : ¬(n = dest ∧ n = src) := by
      rintro ⟨rfl, rfl⟩
      exact hne rfl
    have h2 : ¬(n = src ∧ n = dest) := by
      rintro ⟨rfl, rfl⟩
      exact hne rfl
    rw [if_neg h1, if_neg h2]
    exact (h n).2

theorem rsGood_globalRound (net : Net) (h : rsGood net.routers) :
    rsGood (globalRound net).routers := by
  intro n
  by_cases hn : n ∈ net.names
  · rw [globalRound_routers_mem net n hn]
    rw [applyRound_table]
    have hq : ∀ m ∈ (net.routers n).neighbours.map
        (fun m => ((net.routers m).table, m)), tableNonneg m.1 := by
      intro m hm
      obtain ⟨x, _, rfl⟩ := List.mem_map.mp hm
      exact (h x).1
    constructor
    · exact relax_nonneg _ _ _ (h n).1 hq
    · have hself : (((net.routers n).table) n).1 = Cost.fin 0 := by
        rw [(h n).2]
      rw [relax_self _ _ _ n hself (h n).1 hq]
      exact (h n).2
  · rw [globalRound_routers_not_mem net n hn]
    exact h n

theorem rsGood_simulate (net : Net) (h : rsGood net.routers) :
    ∀ r, rsGood (simulate net r).routers := by
  intro r
  induction r with
  | zero => exact h
  | succ r ih => exact rsGood_globalRound (simulate net r) ih

theorem parseInput_rsGood {names : List String}
    {edges : List (String × String × Int)} {net : Net}
    (h : parseInput names edges = Except.ok net)
    (hpos : ∀ e ∈ edges, (0 : Int) < e.2.2) : rsGood net.routers := by
  obtain ⟨-, hfold⟩ := parseInput_ok h
  exact parse_foldlM_invariant rsGood (fun e => (0 : Int) < e.2.2) names
    (fun rs src dest c hne hc hg => rsGood_addEdge rs src dest c hne hc hg)
    edges _ net.routers hpos rsGood_init hfold

/-! ### The next-hop invariant -/

theorem Cost.ne_inf_of_blt {a b : Cost} (h : a.blt b = true) : a ≠ Cost.inf := by
  cases a <;> simp_all [Cost.blt]

theorem Cost.ne_inf_of_ble_ne_inf {a b : Cost} (h : a.ble b = true)
    (hb : b ≠ Cost.inf) : a ≠ Cost.inf := by
  cases a <;> cases b <;> simp_all [Cost.ble]


theorem relaxVec_tInv (own : Table) (univ : List String) (t vec : Table)
    (name n : String) (nbrs : List String)
    (hname : name ∈ nbrs) (hself : n ∉ nbrs) (ht : tInv n nbrs t) :
    tInv n nbrs (relaxVec own univ t (vec, name)) := by
  obtain ⟨hfin, hhop⟩ := ht
  constructor
  · intro m hm
    rw [relaxVec_apply]
    split
    · next hcond => exact Cost.ne_inf_of_blt hcond.2
    · exact hfin m hm
  · intro d hd
    rw [relaxVec_apply]
    by_cases hcond : d ∈ univ ∧
        (((vec d).1).add ((own name).1)).blt ((t d).1) = true
    · rw [if_pos hcond]
      intro _
      have hnn : name ≠ n := fun h => hself (h ▸ hname)
      exact hhop name hnn (hfin name hname)
    · rw [if_neg hcond]
      exact hhop d hd

theorem relax_foldl_tInv (own : Table) (univ : List String) (n : String)
    (nbrs : List String) (hself : n ∉ nbrs) :
    ∀ (q : List (Table × String)) (t : Table),
      (∀ m ∈ q, m.2 ∈ nbrs) → tInv n nbrs t →
      tInv n nbrs (q.foldl (relaxVec own univ) t) := by
  intro q
  induction q with
  | nil => intro t _ ht; exact ht
  | cons m rest ih =>
    intro t hq ht
    simp only [List.foldl_cons]
    refine ih (relaxVec own univ t m) (fun x hx => hq x (List.mem_cons_of_mem _ hx)) ?_
    cases m with
    | mk vec name =>
      exact relaxVec_tInv own univ t vec name n nbrs
        (hq (vec, name) (List.mem_cons_self _ _)) hself ht


theorem rsInvHop_init : rsInvHop (fun n => Router.init n) := by
  intro n
  refine ⟨List.not_mem_nil n, ⟨fun m hm => absurd hm (List.not_mem_nil m), ?_⟩⟩
  intro d hd hfin
  exfalso
  apply hfin
  show ((if d = n then ((Cost.fin 0 : Cost), ("None" : String)) else defaultEntry).1)
    = Cost.inf
  simp [hd, defaultEntry]

theorem rsInvHop_addEdge (rs : String → Router) (src dest : String) (c : Int)
    (hne : src ≠ dest) (h : rsInvHop rs) : rsInvHop (addEdge rs src dest c) := by
  intro n
  obtain ⟨hs, hfin, hhop⟩ := h n
  rw [addEdge_neighbours rs src dest c hne]
  by_cases h1 : n = dest
  · subst h1
    have hds : ¬ n = src := fun hx => hne hx.symm
    simp only [if_pos rfl]
    refine ⟨?_, ?_, ?_⟩
    · intro hmem
      rcases List.mem_append.mp hmem with hmem | hmem
      · exact hs hmem
      · exact hds (List.mem_singleton.mp hmem)
    · intro m hm
      rw [addEdge_table_apply rs src n c hne]
      by_cases h2 : m = src
      · rw [if_pos ⟨rfl, h2⟩]
        exact fun hcontra => Cost.noConfusion hcontra
      · rw [if_neg (fun hx => h2 hx.2), if_neg (fun hx => hds hx.1)]
        rcases List.mem_append.mp hm with hm | hm
        · exact hfin m hm
        · exact absurd (List.mem_singleton.mp hm) h2
    · intro d hd
      rw [addEdge_table_apply rs src n c hne]
      by_cases h2 : d = src
      · rw [if_pos ⟨rfl, h2⟩]
        intro _
        exact List.mem_append.mpr (Or.inr (List.mem_singleton.mpr rfl))
      · rw [if_neg (fun hx => h2 hx.2), if_neg (fun hx => hds hx.1)]
        intro hdfin
        exact List.mem_append.mpr (Or.inl (hhop d hd hdfin))
  · by_cases h2 : n = src
    · subst h2
      simp only [if_neg h1, if_pos rfl]
      refine ⟨?_, ?_, ?_⟩
      · intro hmem
        rcases List.mem_append.mp hmem with hmem | hmem
        · exact hs hmem
        · exact hne (List.mem_singleton.mp hmem)
      · intro m hm
        rw [addEdge_table_apply rs n dest c hne]
        by_cases h3 : m = dest
        · rw [if_neg (fun hx => h1 hx.1), if_pos ⟨rfl, h3⟩]
          exact fun hcontra => Cost.noConfusion hcontra
        · rw [if_neg (fun hx => h1 hx.1), if_neg (fun hx => h3 hx.2)]
          rcases List.mem_append.mp hm with hm | hm
          · exact hfin m hm
          · exact absurd (List.mem_singleton.mp hm) h3
      · intro d hd
        rw [addEdge_table_apply rs n dest c hne]
        by_cases h3 : d = dest
        · rw [if_neg (fun hx => h1 hx.1), if_pos ⟨rfl, h3⟩]
          intro _
          exact List.mem_append.mpr (Or.inr (List.mem_singleton.mpr rfl))
        · rw [if_neg (fun hx => h1 hx.1), if_neg (fun hx => h3 hx.2)]
          intro hdfin
          exact List.mem_append.mpr (Or.inl (hhop d hd hdfin))
    · simp only [if_neg h1, if_neg h2]
      refine ⟨hs, ?_, ?_⟩
      · intro m hm
        rw [addEdge_table_apply rs src dest c hne]
        rw [if_neg (fun hx => h1 hx.1), if_neg (fun hx => h2 hx.1)]
        exact hfin m hm
      · intro d hd
        rw [addEdge_table_apply rs src dest c hne]
        rw [if_neg (fun hx => h1 hx.1), if_neg (fun hx => h2 hx.1)]
        exact hhop d hd

theorem rsInvHop_globalRound (net : Net) (h : rsInvHop net.routers) :
    rsInvHop (globalRound net).routers := by
  intro n
  obtain ⟨hs, ht⟩ := h n
  by_cases hn : n ∈ net.names
  · rw [globalRound_routers_mem net n hn]
    rw [applyRound_neighbours, applyRound_table]
    refine ⟨hs, ?_⟩
    show tInv n (net.routers n).neighbours
      (relax (net.routers n).table net.names
        ((net.routers n).neighbours.map (fun m => ((net.routers m).table, m))))
    refine relax_foldl_tInv _ _ _ _ hs _ _ ?_ ht
    intro m hm
    obtain ⟨x, hx, rfl⟩ := List.mem_map.mp hm
    exact hx
  · rw [globalRound_routers_not_mem net n hn]
    exact ⟨hs, ht⟩

theorem rsInvHop_simulate (net : Net) (h : rsInvHop net.routers) :
    ∀ r, rsInvHop (simulate net r).routers := by
  intro r
  induction r with
  | zero => exact h
  | succ r ih => exact rsInvHop_globalRound (simulate net r) ih

theorem parseInput_rsInvHop {names : List String}
    {edges : List (String × String × Int)} {net : Net}
    (h : parseInput names edges = Except.ok net) : rsInvHop net.routers := by
  obtain ⟨-, hfold⟩ := parseInput_ok h
  exact parse_foldlM_invariant rsInvHop (fun _ => True) names
    (fun rs src dest c hne _ hg => rsInvHop_addEdge rs src dest c hne hg)
    edges _ net.routers (fun _ _ => trivial) rsInvHop_init hfold

/-! ### The claims -/

/-- C1: one call of the relaxation performs a single Bellman-Ford sweep
over all received vectors and the full node-ID universe; for each received
`(vector, senderID)` and each destination `d` the candidate is
`vector[d].cost + ownTable[senderID].cost`, with the sender cost read from
the table as it was before this round's updates, and on a strict
improvement the entry becomes `(candidate, newTable[senderID].nextHop)` —
the next hop recorded is the node's current next hop toward the sender,
not the sender itself. -/
theorem c1_relaxation_formula :
    (∀ (univ : List String) (r : Router),
      (applyRound univ r).table = relax r.table univ r.queue) ∧
    (∀ (own : Table) (univ : List String) (q : List (Table × String)),
      relax own univ q = q.foldl (relaxVec own univ) own) ∧
    (∀ (own : Table) (univ : List String) (t vec : Table) (name d : String),
      (relaxVec own univ t (vec, name)) d =
        if d ∈ univ ∧ ((vec d).1.add ((own name).1)).blt ((t d).1) = true
        then (((vec d).1.add ((own name).1)), (t name).2)
        else t d) :=
  ⟨fun _ _ => rfl, fun _ _ _ => rfl,
    fun own univ t vec name d => relaxVec_apply own univ t vec name d⟩

/-- C3: costs never increase: for every network state, node, destination
and round, the cost after round `r+1` is at most the cost after round
`r`. -/
theorem c3_monotonic (net : Net) (n d : String) (r : Nat) :
    ((((simulate net (r + 1)).routers n).table d).1).ble
      ((((simulate net r).routers n).table d).1) = true := by
  rw [simulate]
  by_cases hn : n ∈ (simulate net r).names
  · rw [globalRound_routers_mem _ n hn, applyRound_table]
    exact relax_cost_ble _ _ _ d
  · rw [globalRound_routers_not_mem _ n hn]
    exact Cost.ble_refl _

/-- C7: `applyRound` replaces the table with the relaxed one, stamps
`appended_at[k]` with the new round number exactly for the destinations
whose `(cost, nextHop)` value changed, increments the round counter by
one, and leaves the queue empty. -/
theorem c7_applyRound_effect (univ : List String) (r : Router) :
    (applyRound univ r).table = relax r.table univ r.queue ∧
    (∀ k, (applyRound univ r).appended_at k =
      if r.table k ≠ relax r.table univ r.queue k then some (r.iterations + 1)
      else r.appended_at k) ∧
    (applyRound univ r).iterations = r.iterations + 1 ∧
    (applyRound univ r).queue = [] :=
  ⟨rfl, fun _ => rfl, rfl, rfl⟩

/-- C8: cost arithmetic saturates at the infinity sentinel: `inf + c` and
`c + inf` are `inf` for every cost `c`, a sum involving `inf` is never
strictly below anything, and a candidate computed from an unreachable
destination (`vector[d].cost = inf`) never changes a table entry. -/
theorem c8_inf_saturation :
    (∀ c : Cost, Cost.inf.add c = Cost.inf) ∧
    (∀ c : Cost, c.add Cost.inf = Cost.inf) ∧
    (∀ c x : Cost, (Cost.inf.add c).blt x = false) ∧
    (∀ (own : Table) (univ : List String) (t vec : Table) (name d : String),
      (vec d).1 = Cost.inf → (relaxVec own univ t (vec, name)) d = t d) := by
  refine ⟨Cost.inf_add, Cost.add_inf, ?_, ?_⟩
  · intro c x
    rw [Cost.inf_add]
    exact Cost.inf_blt x
  · intro own univ t vec name d hinf
    rw [relaxVec_apply, hinf, Cost.inf_add]
    simp [Cost.inf_blt]

theorem c8_inf_saturation_witness :
    (vecP "Z").1 = Cost.inf ∧
    (relaxVec ownX univX ownX (vecP, "P")) "Z" = ownX "Z" :=
  ⟨rfl, c8_inf_saturation.2.2.2 ownX univX ownX vecP "P" "Z" rfl⟩

/-- C5 is false of the code: an edge with a non-positive cost and a
duplicated (even contradictory) edge are both accepted by the parser
without any error. -/
theorem c5_counterexample :
    (parseInput ["A", "B"] [("A", "B", -1)]).isOk = true ∧
    (parseInput ["A", "B"] [("A", "B", 1), ("A", "B", 2)]).isOk = true := by
  exact ⟨rfl, rfl⟩

/-- C5 amended: topology loading aborts — with the blanket `SyntaxError`
of the bare `except`, there is no `ConfigurationError` — exactly when some
edge references an undeclared node or is a self-loop (the self entry is an
immutable tuple, so assigning through it raises); non-positive costs and
duplicate or contradictory edges are accepted silently. -/
theorem c5_parser_error_condition (names : List String)
    (edges : List (String × String × Int)) :
    (parseInput names edges).isOk =
      edges.all (fun e =>
        decide (e.1 ∈ names) && decide (e.1 ≠ e.2.1) && decide (e.2.1 ∈ names)) := by
  have hiok := parse_foldlM_isOk names edges (fun n => Router.init n)
  unfold parseInput
  cases hf : edges.foldlM (parseEdge names) (fun n => Router.init n) with
  | error msg =>
    rw [hf] at hiok
    rw [← hiok]
    rfl
  | ok rs =>
    rw [hf] at hiok
    rw [← hiok]
    rfl

/-- C2: for every topology accepted by the parser with positive edge
costs, every node's table entry for itself is `(0, "None")` after every
round, including round 0, so no round's relaxation ever changes it. -/
theorem c2_self_entry {names : List String}
    {edges : List (String × String × Int)} {net : Net}
    (h : parseInput names edges = Except.ok net)
    (hpos : ∀ e ∈ edges, (0 : Int) < e.2.2) (n : String) (r : Nat) :
    ((simulate net r).routers n).table n = (Cost.fin 0, "None") :=
  ((rsGood_simulate net (parseInput_rsGood h hpos) r) n).2

theorem c2_self_entry_witness :
    parseInput ["A", "B"] [("A", "B", 1)] = Except.ok netAB ∧
    (∀ e ∈ [(("A" : String), ("B" : String), (1 : Int))], (0 : Int) < e.2.2) ∧
    ((simulate netAB 1).routers "A").table "A" = (Cost.fin 0, "None") :=
  ⟨rfl, by decide,
    @c2_self_entry ["A", "B"] [("A", "B", 1)] netAB rfl (by decide) "A" 1⟩

/-- C6 is false of the code: the two orders of the same two received
vectors give different tables — the costs agree but the recorded next
hops differ when equal-cost improvements come from different senders. -/
theorem c6_counterexample :
    List.Perm [(vecP, "P"), (vecQ, "Q")] [(vecQ, "Q"), (vecP, "P")] ∧
    (relax ownX univX [(vecP, "P"), (vecQ, "Q")]) "D" ≠
      (relax ownX univX [(vecQ, "Q"), (vecP, "P")]) "D" :=
  ⟨List.Perm.swap _ _ _, by decide⟩

/-- C6 amended: the costs produced by a round's relaxation are independent
of the order in which the received vectors are processed (the next hops
need not be). -/
theorem c6_cost_order_invariance (own : Table) (univ : List String)
    (q q' : List (Table × String)) (hp : q.Perm q') (d : String) :
    ((relax own univ q) d).1 = ((relax own univ q') d).1 :=
  relax_cost_perm own univ q q' hp d

theorem c6_cost_order_invariance_witness :
    List.Perm [(vecP, "P"), (vecQ, "Q")] [(vecQ, "Q"), (vecP, "P")] ∧
    ((relax ownX univX [(vecP, "P"), (vecQ, "Q")]) "D").1 =
      ((relax ownX univX [(vecQ, "Q"), (vecP, "P")]) "D").1 :=
  ⟨List.Perm.swap _ _ _,
    c6_cost_order_invariance ownX univX _ _ (List.Perm.swap _ _ _) "D"⟩

/-- C9: relaxation is idempotent at a fixed point: if a round left the
table unchanged, applying the round again with the same queued vectors
changes neither the table nor any `appended_at` entry. -/
theorem c9_idempotent_at_fixed_point (univ : List String) (r : Router)
    (h : ∀ d ∈ univ, (applyRound univ r).table d = r.table d) :
    (∀ d, (applyRound univ { applyRound univ r with queue := r.queue }).table d
        = (applyRound univ r).table d) ∧
    (∀ k, (applyRound univ { applyRound univ r with queue := r.queue }).appended_at k
        = (applyRound univ r).appended_at k) := by
  have hall : ∀ d, relax r.table univ r.queue d = r.table d := by
    intro d
    by_cases hd : d ∈ univ
    · exact h d hd
    · exact relax_not_mem r.table univ r.queue d hd
  have heq : relax r.table univ r.queue = r.table := funext hall
  constructor
  · intro d
    show relax (relax r.table univ r.queue) univ r.queue d
      = relax r.table univ r.queue d
    simp only [heq]
  · intro k
    show (if relax r.table univ r.queue k
          ≠ relax (relax r.table univ r.queue) univ r.queue k
        then some ((r.iterations + 1) + 1)
        else (applyRound univ r).appended_at k)
      = (applyRound univ r).appended_at k
    simp only [heq]
    simp

theorem c9_idempotent_at_fixed_point_witness :
    (∀ d ∈ univAB, (applyRound univAB routerA).table d = routerA.table d) ∧
    (∀ d, (applyRound univAB { applyRound univAB routerA with queue := routerA.queue }).table d
        = (applyRound univAB routerA).table d) :=
  ⟨by decide, (c9_idempotent_at_fixed_point univAB routerA (by decide)).1⟩

/-- C4 is false of the code: in the line `A-B-C` with unit costs, already
after round 1 node `A`'s entry for `C` is `(2, B)`, not `(inf, no path)`
— the one-hop entries installed at initialization propagate one round
earlier than the claim states. -/
theorem c4_counterexample :
    ((simulate lineNet 1).routers "A").table "C" = (Cost.fin 2, "B") ∧
    ((simulate lineNet 1).routers "A").table "C" ≠ (Cost.inf, "[no path]") := by
  exact ⟨by decide, by decide⟩

/-- C4 amended: in the line `A-B-C` with unit costs, after round 1 (and
still after round 2) `A.table[C] = (2, B)` and `C.table[A] = (2, B)`. -/
theorem c4_line_scenario :
    ((simulate lineNet 1).routers "A").table "C" = (Cost.fin 2, "B") ∧
    ((simulate lineNet 1).routers "C").table "A" = (Cost.fin 2, "B") ∧
    ((simulate lineNet 2).routers "A").table "C" = (Cost.fin 2, "B") ∧
    ((simulate lineNet 2).routers "C").table "A" = (Cost.fin 2, "B") := by
  refine ⟨by decide, by decide, by decide, by decide⟩

/-- C10: in every state reachable from a parsed topology with positive
edge costs, a finite-cost entry of node `n` for a destination `d ≠ n` has
a next hop among `n`'s direct neighbours (in particular never a
sentinel). -/
theorem c10_nexthop_is_neighbour {names : List String}
    {edges : List (String × String × Int)} {net : Net}
    (h : parseInput names edges = Except.ok net)
    (hpos : ∀ e ∈ edges, (0 : Int) < e.2.2)
    (r : Nat) (n d : String) (hd : d ≠ n)
    (hfin : (((simulate net r).routers n).table d).1 ≠ Cost.inf) :
    (((simulate net r).routers n).table d).2
      ∈ ((simulate net r).routers n).neighbours :=
  (((rsInvHop_simulate net (parseInput_rsInvHop h) r) n).2).2 d hd hfin

theorem c10_nexthop_is_neighbour_witness :
    parseInput ["A", "B", "C"] [("A", "B", 1), ("B", "C", 1)] = Except.ok lineNet ∧
    (∀ e ∈ [(("A" : String), ("B" : String), (1 : Int)), ("B", "C", 1)],
      (0 : Int) < e.2.2) ∧
    ("C" : String) ≠ "A" ∧
    (((simulate lineNet 2).routers "A").table "C").1 ≠ Cost.inf ∧
    (((simulate lineNet 2).routers "A").table "C").2
      ∈ ((simulate lineNet 2).routers "A").neighbours :=
  ⟨rfl, by decide, by decide, by decide,
    @c10_nexthop_is_neighbour ["A", "B", "C"] [("A", "B", 1), ("B", "C", 1)]
      lineNet rfl (by decide) 2 "A" "C" (by decide) (by decide)⟩
